import Mathlib

/-!
Verification of the traad refactoring-server core (`traad/rope_interface.py`,
`traad/server.py`) against its natural-language specification.

The source is a thin orchestrator over an external analysis engine (rope) and
the Python standard library.  Pure logic that lives in the source
(`_to_relative_path`, the `get_all_resources` breadth-first loop, the
`undo`/`redo` index handling, `get_definition_location` normalization, the
entry-point argument table) is embedded directly.  Behavior the source
delegates to collaborators that are not part of the repository (rope's
`History`, `Project.do`, CPython's `posixpath`) is modelled from the
specification's description of those collaborators, as noted on each
definition.
-/

namespace Traad

/-! ## Path resolution (`RopeInterface._to_relative_path`)

Paths are modelled as `List Char` (POSIX semantics; the separator is `'/'`).
`os.path.isabs` and `os.path.relpath` are CPython `posixpath` functions, not
repository code; they are modelled here following `posixpath.relpath`:
normalize both (absolute) arguments, split into components, drop the common
prefix, and prepend one `..` component per remaining component of the start
directory. -/

/-- Split a character list on `'/'`, keeping empty pieces
(model of Python's `str.split('/')`). -/
def splitSlash : List Char → List (List Char)
  | [] => [[]]
  | c :: rest =>
    if c = '/' then [] :: splitSlash rest
    else
      match splitSlash rest with
      | [] => [[c]]
      | p :: ps => (c :: p) :: ps

/-- Normalize a component list the way `posixpath.normpath` treats the
components of an absolute path: empty and `.` components vanish, and a `..`
component removes the preceding real component (at the root, a `..` simply
vanishes).  Modelled from CPython's `posixpath.normpath`/`abspath`, which
`relpath` applies to both of its (here absolute) arguments. -/
def normComps (acc : List (List Char)) : List (List Char) → List (List Char)
  | [] => acc
  | c :: rest =>
    if c = [] ∨ c = ['.'] then normComps acc rest
    else if c = ['.', '.'] then normComps acc.dropLast rest
    else normComps (acc ++ [c]) rest

/-- The normalized component list of an absolute path. -/
def normComponents (l : List Char) : List (List Char) :=
  normComps [] (splitSlash l)

/-- Length of the longest common prefix of two component lists
(model of `genericpath.commonprefix` applied to two lists). -/
def commonPrefixLen : List (List Char) → List (List Char) → Nat
  | a :: as, b :: bs => if a = b then commonPrefixLen as bs + 1 else 0
  | _, _ => 0

/-- Join relative components with `'/'`; an empty component list yields `"."`
(model of `posixpath.relpath`'s `return curdir` / `join(*rel_list)` tail). -/
def joinComps : List (List Char) → List Char
  | [] => ['.']
  | [c] => c
  | c :: rest => c ++ '/' :: joinComps rest

/-- Model of `posixpath.relpath(path, start)` for absolute `path` and
`start` (the only way `_to_relative_path` calls it: `path` has passed the
`isabs` check and `start` is the project root's `real_path`). -/
def relpathChars (path start : List Char) : List Char :=
  let startList := normComponents start
  let pathList := normComponents path
  let i := commonPrefixLen startList pathList
  joinComps (List.replicate (startList.length - i) ['.', '.'] ++ pathList.drop i)

/-- Model of `posixpath.isabs`: the path begins with the separator. -/
def isabsChars : List Char → Bool
  | '/' :: _ => true
  | _ => false

/-- Embedding of `RopeInterface._to_relative_path` (rope_interface.py,
lines 312-329): if the path is absolute it is made relative to the project
root via `relpath`, otherwise it is returned unchanged. -/
def toRelativePath (root path : List Char) : List Char :=
  if isabsChars path then relpathChars path root else path

/-- A path that begins with a `..` component (a leading path escape):
either it is exactly `..`, or it starts with `../`. -/
def hasLeadingParentEscape (l : List Char) : Bool :=
  decide (l = ['.', '.']) || decide (l.take 3 = ['.', '.', '/'])

theorem splitSlash_ne_nil (l : List Char) : splitSlash l ≠ [] := by
  cases l with
  | nil => simp [splitSlash]
  | cons c rest =>
    simp only [splitSlash]
    split
    · simp
    · split <;> simp

theorem splitSlash_no_slash (l : List Char) :
    ∀ p ∈ splitSlash l, '/' ∉ p := by
  induction l with
  | nil => simp_all [splitSlash]
  | cons c rest ih =>
    intro p hp
    simp only [splitSlash] at hp
    by_cases hcv : c = '/'
    · rw [if_pos hcv] at hp
      rcases List.mem_cons.mp hp with h | h
      · subst h; simp
      · exact ih p h
    · rw [if_neg hcv] at hp
      rcases hq : splitSlash rest with - | ⟨q, qs⟩
      · exact absurd hq (splitSlash_ne_nil rest)
      · rw [hq] at hp
        rcases List.mem_cons.mp hp with h | h
        · subst h
          intro hmem
          rcases List.mem_cons.mp hmem with h2 | h2
          · exact hcv h2.symm
          · exact ih q (by rw [hq]; exact List.mem_cons_self q qs) h2
        · exact ih p (by rw [hq]; exact List.mem_cons_of_mem q h)

/-- Every component that `normComps` can emit either was in the accumulator
or is a component of the input that is nonempty and none of `.` or `..`. -/
theorem normComps_mem (parts : List (List Char)) :
    ∀ acc, ∀ x ∈ normComps acc parts,
      x ∈ acc ∨ (x ∈ parts ∧ x ≠ [] ∧ x ≠ ['.'] ∧ x ≠ ['.', '.']) := by
  induction parts with
  | nil =>
    intro acc x hx
    simp [normComps] at hx
    exact Or.inl hx
  | cons c rest ih =>
    intro acc x hx
    simp only [normComps] at hx
    by_cases h1 : c = [] ∨ c = ['.']
    · rw [if_pos h1] at hx
      rcases ih acc x hx with h | h
      · exact Or.inl h
      · exact Or.inr ⟨List.mem_cons_of_mem c h.1, h.2⟩
    · by_cases h2 : c = ['.', '.']
      · rw [if_neg h1, if_pos h2] at hx
        rcases ih acc.dropLast x hx with h | h
        · exact Or.inl (List.dropLast_subset acc h)
        · exact Or.inr ⟨List.mem_cons_of_mem c h.1, h.2⟩
      · rw [if_neg h1, if_neg h2] at hx
        rcases ih (acc ++ [c]) x hx with h | h
        · rcases List.mem_append.mp h with h | h
          · exact Or.inl h
          · have hx2 : x = c := by simpa using h
            push_neg at h1
            exact Or.inr ⟨hx2 ▸ List.mem_cons_self c rest, hx2 ▸ h1.1,
              hx2 ▸ h1.2, hx2 ▸ h2⟩
        · exact Or.inr ⟨List.mem_cons_of_mem c h.1, h.2⟩

theorem normComponents_mem (l : List Char) :
    ∀ x ∈ normComponents l,
      x ≠ [] ∧ x ≠ ['.'] ∧ x ≠ ['.', '.'] ∧ '/' ∉ x := by
  intro x hx
  rcases normComps_mem (splitSlash l) [] x hx with h | h
  · simp at h
  · exact ⟨h.2.1, h.2.2.1, h.2.2.2, splitSlash_no_slash l x h.1⟩

/-- The join of components that are nonempty and `'/'`-free is never
an absolute path. -/
theorem joinComps_not_abs (comps : List (List Char))
    (h : ∀ c ∈ comps, c ≠ [] ∧ '/' ∉ c) :
    isabsChars (joinComps comps) = false := by
  match comps with
  | [] => rfl
  | [c] =>
    have hc := h c (List.mem_singleton.mpr rfl)
    match c, hc with
    | [], hc => exact absurd rfl hc.1
    | x :: c', hc =>
      simp only [joinComps, isabsChars]
      split
      · rename_i heq
        exfalso
        exact hc.2 (by rw [List.cons.injEq] at heq; rw [heq.1]; exact List.mem_cons_self _ _)
      · rfl
  | c :: d :: rest =>
    have hc := h c (List.mem_cons_self _ _)
    match c, hc with
    | [], hc => exact absurd rfl hc.1
    | x :: c', hc =>
      simp only [joinComps, isabsChars, List.cons_append]
      split
      · rename_i heq
        exfalso
        exact hc.2 (by rw [List.cons.injEq] at heq; rw [heq.1]; exact List.mem_cons_self _ _)
      · rfl

/-- The result of the (modelled) `relpath` is never an absolute path. -/
theorem relpathChars_not_abs (path start : List Char) :
    isabsChars (relpathChars path start) = false := by
  apply joinComps_not_abs
  intro c hc
  rcases List.mem_append.mp hc with h | h
  · have := List.eq_of_mem_replicate h
    subst this
    constructor
    · simp
    · simp
  · have := normComponents_mem path c (List.drop_subset _ _ h)
    exact ⟨this.1, this.2.2.2⟩

/-- Claim C6: path resolution is idempotent.  A relative path is returned
unchanged, and resolving twice equals resolving once (because the result of
resolving an absolute path is itself relative). -/
theorem toRelativePath_idempotent (root p : List Char) :
    (isabsChars p = false → toRelativePath root p = p) ∧
    toRelativePath root (toRelativePath root p) = toRelativePath root p := by
  constructor
  · intro h
    simp [toRelativePath, h]
  · by_cases h : isabsChars p
    · have h2 : toRelativePath root p = relpathChars p root := by
        simp [toRelativePath, h]
      rw [h2]
      simp [toRelativePath, relpathChars_not_abs]
    · simp at h
      simp [toRelativePath, h]

/-- Witness for C6 at concrete inputs. -/
theorem toRelativePath_idempotent_witness :
    isabsChars "a/b.py".data = false ∧
    toRelativePath "/proj".data "a/b.py".data = "a/b.py".data ∧
    toRelativePath "/proj".data (toRelativePath "/proj".data "/proj/a/b.py".data)
      = toRelativePath "/proj".data "/proj/a/b.py".data :=
  ⟨by decide,
   (toRelativePath_idempotent "/proj".data "a/b.py".data).1 (by decide),
   (toRelativePath_idempotent "/proj".data "/proj/a/b.py".data).2⟩

/-- Claim C5 counterexample: the absolute input `/etc/x` contains no `..`
component, lies outside the project root `/proj`, and resolves to
`../etc/x`, which begins with a `..` path escape. -/
theorem toRelativePath_escape_counterexample :
    isabsChars "/etc/x".data = true ∧
    splitSlash "/etc/x".data = [[], ['e', 't', 'c'], ['x']] ∧
    toRelativePath "/proj".data "/etc/x".data = "../etc/x".data ∧
    hasLeadingParentEscape (toRelativePath "/proj".data "/etc/x".data) = true := by
  refine ⟨by decide, by decide, by decide, by decide⟩

theorem commonPrefixLen_of_take_eq (a : List (List Char)) :
    ∀ b : List (List Char), b.take a.length = a →
      commonPrefixLen a b = a.length := by
  induction a with
  | nil => intro b _; rfl
  | cons x a' ih =>
    intro b hb
    cases b with
    | nil => simp at hb
    | cons y b' =>
      simp only [List.length_cons, List.take_succ_cons, List.cons.injEq] at hb
      rw [commonPrefixLen, if_pos hb.1.symm, ih b' hb.2]
      simp

/-- The join of `[]`-free, `..`-free components is never the bare path `..`. -/
theorem joinComps_ne_parent (comps : List (List Char))
    (h : ∀ c ∈ comps, c ≠ [] ∧ c ≠ ['.', '.'] ∧ '/' ∉ c) :
    joinComps comps ≠ ['.', '.'] := by
  match comps with
  | [] => simp [joinComps]
  | [c] =>
    have hc := h c (List.mem_singleton.mpr rfl)
    simpa [joinComps] using hc.2.1
  | c :: d :: rest =>
    have hc := h c (List.mem_cons_self _ _)
    rcases c with - | ⟨a, c'⟩
    · exact absurd rfl hc.1
    · rcases c' with - | ⟨b, c''⟩
      · intro heq
        simp only [joinComps, List.cons_append, List.nil_append] at heq
        simp at heq
      · intro heq
        simp only [joinComps, List.cons_append] at heq
        simp at heq

/-- The join of `[]`-free, `..`-free, `'/'`-free components never starts
with the three characters `../`. -/
theorem joinComps_take_ne_escape (comps : List (List Char))
    (h : ∀ c ∈ comps, c ≠ [] ∧ c ≠ ['.', '.'] ∧ '/' ∉ c) :
    (joinComps comps).take 3 ≠ ['.', '.', '/'] := by
  match comps with
  | [] => simp [joinComps]
  | [c] =>
    have hc := h c (List.mem_singleton.mpr rfl)
    simp only [joinComps]
    intro heq
    have : '/' ∈ c.take 3 := by rw [heq]; simp
    exact hc.2.2 (List.take_subset 3 c this)
  | c :: d :: rest =>
    have hc := h c (List.mem_cons_self _ _)
    rcases c with - | ⟨a, c'⟩
    · exact absurd rfl hc.1
    · rcases c' with - | ⟨b, c''⟩
      · intro heq
        simp only [joinComps, List.cons_append, List.nil_append] at heq
        simp at heq
      · rcases c'' with - | ⟨e, c'''⟩
        · intro heq
          simp only [joinComps, List.cons_append] at heq
          simp at heq
          exact hc.2.1 (by rw [heq.1, heq.2])
        · intro heq
          simp only [joinComps, List.cons_append] at heq
          simp at heq
          exact hc.2.2 (by rw [heq.2.2]; simp)

/-- No element of a `'/'`-free, `[]`-free, `..`-free component list can put a
leading `..` escape at the front of the join. -/
theorem joinComps_no_escape (comps : List (List Char))
    (h : ∀ c ∈ comps, c ≠ [] ∧ c ≠ ['.', '.'] ∧ '/' ∉ c) :
    hasLeadingParentEscape (joinComps comps) = false := by
  simp only [hasLeadingParentEscape, Bool.or_eq_false_iff, decide_eq_false_iff_not]
  exact ⟨joinComps_ne_parent comps h, joinComps_take_ne_escape comps h⟩

/-- Claim C5 (amended): for an absolute input path whose normalized
components extend the project root's normalized components (i.e. the path
lies under the project root), the resolved path is relative and never begins
with a `..` path escape. -/
theorem toRelativePath_no_escape_under_root (root p : List Char)
    (habs : isabsChars p = true)
    (hunder : (normComponents p).take (normComponents root).length
                = normComponents root) :
    isabsChars (toRelativePath root p) = false ∧
    hasLeadingParentEscape (toRelativePath root p) = false := by
  have hres : toRelativePath root p = relpathChars p root := by
    simp [toRelativePath, habs]
  rw [hres]
  refine ⟨relpathChars_not_abs p root, ?_⟩
  simp only [relpathChars]
  rw [commonPrefixLen_of_take_eq (normComponents root) (normComponents p) hunder]
  simp only [Nat.sub_self, List.replicate_zero, List.nil_append]
  apply joinComps_no_escape
  intro c hc
  have := normComponents_mem p c (List.drop_subset _ _ hc)
  exact ⟨this.1, this.2.2.1, this.2.2.2⟩

/-- Witness for the amended C5 at concrete inputs. -/
theorem toRelativePath_no_escape_under_root_witness :
    isabsChars "/proj/a/b.py".data = true ∧
    (normComponents "/proj/a/b.py".data).take (normComponents "/proj".data).length
      = normComponents "/proj".data ∧
    isabsChars (toRelativePath "/proj".data "/proj/a/b.py".data) = false ∧
    hasLeadingParentEscape (toRelativePath "/proj".data "/proj/a/b.py".data) = false :=
  ⟨by decide, by decide,
   toRelativePath_no_escape_under_root "/proj".data "/proj/a/b.py".data
     (by decide) (by decide)⟩

/-! ## Change history and refactoring dispatch

`RopeInterface.undo`/`redo` index `self.proj.history.undo_list` /
`redo_list` with a caller-supplied Python `int` before delegating to rope's
`History`; `_extract` / `rename` compute a change set through the engine and
apply it with `self.proj.do`.  rope's `History` and `Project.do` are not part
of this repository; they are modelled from the spec (sections 3, 4.3, 4.4):
`undo_list` and `redo_list` are most-recent-first, applying a change set
pushes it to the front of `undo_list` and clears `redo_list`, `undo(i)` pops
the entry at index `i`, applies its inverse and pushes that inverse to the
front of `redo_list`, and `redo(i)` is symmetric. -/

/-- One resource's contribution to a change set: the resource path with the
contents before and after the edit (the spec's invertible `ResourceChange`). -/
structure ChangeRes where
  path : String
  oldContents : String
  newContents : String
deriving DecidableEq

/-- The spec's `ChangeSet`: a description, a timestamp and an ordered list of
per-resource edits. -/
structure ChangeSet where
  description : String
  time : Nat
  changes : List ChangeRes
deriving DecidableEq

/-- Project resource contents: path to contents. -/
def ProjState : Type := String → String

/-- Update the contents of one path. -/
def setPath (ps : ProjState) (p v : String) : ProjState :=
  fun q => if q = p then v else ps q

/-- Apply an ordered list of edits, setting each path to its new contents. -/
def applyChanges : ProjState → List ChangeRes → ProjState
  | ps, [] => ps
  | ps, c :: rest => applyChanges (setPath ps c.path c.newContents) rest

/-- Apply a change set to the project contents. -/
def applyCS (ps : ProjState) (cs : ChangeSet) : ProjState :=
  applyChanges ps cs.changes

/-- The inverse of one edit: swap old and new contents. -/
def swapChange (c : ChangeRes) : ChangeRes :=
  ⟨c.path, c.newContents, c.oldContents⟩

/-- The inverse of a change set ("inverts the ChangeSet" in the spec):
each edit swapped, in reverse order. -/
def invCS (cs : ChangeSet) : ChangeSet :=
  ⟨cs.description, cs.time, (cs.changes.map swapChange).reverse⟩

/-- The edits of a change set touch pairwise distinct paths. -/
def pathsDistinct : List ChangeRes → Bool
  | [] => true
  | c :: rest => rest.all (fun d => c.path != d.path) && pathsDistinct rest

/-- A change set applies cleanly to the given contents: distinct paths and
every edit's old contents match the current contents.  Used as the model of
the engine's ability to apply a change set atomically. -/
def csValid (ps : ProjState) (cs : ChangeSet) : Bool :=
  pathsDistinct cs.changes &&
    cs.changes.all (fun c => ps c.path == c.oldContents)

/-- A sequence of change sets is applicable in order. -/
def seqValid (ps : ProjState) : List ChangeSet → Bool
  | [] => true
  | cs :: rest => csValid ps cs && seqValid (applyCS ps cs) rest

/-- The state owned by one `RopeInterface`: the project's resource contents
plus rope's history lists (`undo_list`/`redo_list`, most-recent-first). -/
structure State where
  proj : ProjState
  undo_list : List ChangeSet
  redo_list : List ChangeSet

/-- Errors surfaced by the orchestrator: Python's `IndexError` from a bad
history index, and an engine failure (the spec's `AnalysisError`). -/
inductive PyError where
  | indexError
  | analysisError
deriving DecidableEq

/-- Python list indexing semantics for `lst[i]` with an `int` index: a
negative index counts from the end; any remaining out-of-range index is an
`IndexError` (`none`). -/
def pyIdx (len : Nat) (i : Int) : Int :=
  if i < 0 then i + len else i

/-- `lst[i]` as an `Option`: `none` models `IndexError`. -/
def pyGet (l : List α) (i : Int) : Option α :=
  let j := pyIdx l.length i
  if 0 ≤ j then l.get? j.toNat else none

/-- Removal of the element selected by Python index `i` (only used after
`pyGet` succeeded). -/
def pyRemoveAt (l : List α) (i : Int) : List α :=
  l.eraseIdx (pyIdx l.length i).toNat

/-- Embedding of `RopeInterface.undo` (rope_interface.py, lines 68-73):
index `undo_list` with the caller's index — raising `IndexError` before any
mutation if it is out of range — then hand the selected change set to rope's
`History.undo`, modelled from the spec: pop it, apply its inverse to the
project contents, and push the inverse to the front of `redo_list`.  On
error the state is returned unchanged. -/
def undo (st : State) (idx : Int) : State × Option PyError :=
  match pyGet st.undo_list idx with
  | none => (st, some PyError.indexError)
  | some cs =>
    ({ proj := applyCS st.proj (invCS cs),
       undo_list := pyRemoveAt st.undo_list idx,
       redo_list := invCS cs :: st.redo_list }, none)

/-- Embedding of `RopeInterface.redo` (rope_interface.py, lines 75-80),
symmetric to `undo`, moving an entry from `redo_list` back to `undo_list`. -/
def redo (st : State) (idx : Int) : State × Option PyError :=
  match pyGet st.redo_list idx with
  | none => (st, some PyError.indexError)
  | some cs =>
    ({ proj := applyCS st.proj (invCS cs),
       undo_list := invCS cs :: st.undo_list,
       redo_list := pyRemoveAt st.redo_list idx }, none)

/-- Modelled from the spec: rope's `Project.do` (not under src/) applies a
computed change set and records it — push to the front of `undo_list`, clear
`redo_list`.  Application fails (the spec's `AnalysisError`) exactly when
the change set does not apply cleanly to the current contents, leaving
project and history unchanged. -/
def projDo (st : State) (cs : ChangeSet) : State × Option PyError :=
  if csValid st.proj cs then
    ({ proj := applyCS st.proj cs,
       undo_list := cs :: st.undo_list,
       redo_list := [] }, none)
  else (st, some PyError.analysisError)

/-- Embedding of the shared body of `RopeInterface._extract` (lines 145-162)
and `RopeInterface.rename` (lines 206-228): the engine's `get_changes`
result (which may itself fail) is passed to `self.proj.do`; an exception
from either step is re-raised with the state unchanged. -/
def performRefactoring (st : State) (computed : Except PyError ChangeSet) :
    State × Option PyError :=
  match computed with
  | .error e => (st, some e)
  | .ok cs => projDo st cs

/-- `RopeInterface.extract_method` (lines 164-183): `_extract` with the
engine's `ExtractMethod` change computation, abstracted as `computed`. -/
def extract_method (st : State) (computed : Except PyError ChangeSet) :
    State × Option PyError :=
  performRefactoring st computed

/-- `RopeInterface.extract_variable` (lines 185-204): `_extract` with the
engine's `ExtractVariable` change computation, abstracted as `computed`. -/
def extract_variable (st : State) (computed : Except PyError ChangeSet) :
    State × Option PyError :=
  performRefactoring st computed

/-- `RopeInterface.rename` (lines 206-228): resolve, build the engine's
`Rename` change computation (abstracted as `computed`), apply via
`proj.do`. -/
def rename (st : State) (computed : Except PyError ChangeSet) :
    State × Option PyError :=
  performRefactoring st computed

/-- A run of successful refactoring applications, stopping at the first
failure. -/
def recordAll (st : State) : List ChangeSet → State × Option PyError
  | [] => (st, none)
  | cs :: rest =>
    match performRefactoring st (.ok cs) with
    | (st', none) => recordAll st' rest
    | (st', some e) => (st', some e)

/-- `n` successive calls of `undo(0)`, stopping at the first failure. -/
def undoTimes (st : State) : Nat → State × Option PyError
  | 0 => (st, none)
  | Nat.succ n =>
    match undo st 0 with
    | (st', none) => undoTimes st' n
    | (st', some e) => (st', some e)

/-- Apply a list of change sets to project contents, in order. -/
def applyAllPS (ps : ProjState) : List ChangeSet → ProjState
  | [] => ps
  | cs :: rest => applyAllPS (applyCS ps cs) rest

theorem setPath_setPath_same (ps : ProjState) (p v w : String) :
    setPath (setPath ps p v) p w = setPath ps p w := by
  funext q
  simp only [setPath]
  by_cases h : q = p <;> simp [h]

theorem setPath_self (ps : ProjState) (p : String) :
    setPath ps p (ps p) = ps := by
  funext q
  simp only [setPath]
  by_cases h : q = p <;> simp [h]

theorem setPath_ne (ps : ProjState) (p v q : String) (h : q ≠ p) :
    setPath ps p v q = ps q := by
  simp [setPath, h]

theorem applyChanges_append (ps : ProjState) (xs ys : List ChangeRes) :
    applyChanges ps (xs ++ ys) = applyChanges (applyChanges ps xs) ys := by
  induction xs generalizing ps with
  | nil => rfl
  | cons c rest ih => exact ih (setPath ps c.path c.newContents)

theorem pathsDistinct_cons {c : ChangeRes} {rest : List ChangeRes}
    (h : pathsDistinct (c :: rest) = true) :
    (∀ d ∈ rest, c.path ≠ d.path) ∧ pathsDistinct rest = true := by
  simp only [pathsDistinct, Bool.and_eq_true, List.all_eq_true] at h
  exact ⟨fun d hd => by simpa using h.1 d hd, h.2⟩

/-- Applying a change set and then its inverse restores the contents,
provided the change set applied cleanly. -/
theorem applyChanges_roundtrip (l : List ChangeRes) :
    ∀ ps : ProjState, pathsDistinct l = true →
      (∀ c ∈ l, ps c.path = c.oldContents) →
      applyChanges (applyChanges ps l) ((l.map swapChange).reverse) = ps := by
  induction l with
  | nil => intro ps _ _; rfl
  | cons c rest ih =>
    intro ps hdist hmatch
    have hd := pathsDistinct_cons hdist
    simp only [List.map_cons, List.reverse_cons, applyChanges]
    rw [applyChanges_append]
    rw [ih (setPath ps c.path c.newContents) hd.2
      (fun d hd2 => by
        rw [setPath_ne ps c.path c.newContents d.path (Ne.symm (hd.1 d hd2))]
        exact hmatch d (List.mem_cons_of_mem c hd2))]
    show applyChanges (setPath ps c.path c.newContents) [swapChange c] = ps
    simp only [applyChanges, swapChange]
    rw [setPath_setPath_same, ← hmatch c (List.mem_cons_self c rest), setPath_self]

theorem csValid_parts {ps : ProjState} {cs : ChangeSet}
    (h : csValid ps cs = true) :
    pathsDistinct cs.changes = true ∧
      ∀ c ∈ cs.changes, ps c.path = c.oldContents := by
  simp only [csValid, Bool.and_eq_true, List.all_eq_true] at h
  exact ⟨h.1, fun c hc => by simpa using h.2 c hc⟩

/-- `applyCS` then `applyCS` of the inverse is the identity on valid input. -/
theorem applyCS_invCS (ps : ProjState) (cs : ChangeSet)
    (h : csValid ps cs = true) :
    applyCS (applyCS ps cs) (invCS cs) = ps := by
  have hp := csValid_parts h
  exact applyChanges_roundtrip cs.changes ps hp.1 hp.2

theorem seqValid_cons {ps : ProjState} {cs : ChangeSet} {rest : List ChangeSet}
    (h : seqValid ps (cs :: rest) = true) :
    csValid ps cs = true ∧ seqValid (applyCS ps cs) rest = true := by
  simpa [seqValid, Bool.and_eq_true] using h

theorem pyGet_none_of_ge (l : List α) (idx : Int)
    (h : (l.length : Int) ≤ idx) : pyGet l idx = none := by
  have hneg : ¬ idx < 0 := by omega
  simp only [pyGet, pyIdx, if_neg hneg]
  rw [if_pos (by omega : (0:Int) ≤ idx)]
  exact List.get?_eq_none.mpr (by omega)

/-- Claim C1: for every index at or beyond the length of the corresponding
list, `undo(idx)` and `redo(idx)` fail with the out-of-range index error and
return the state — history lists and project contents — unchanged. -/
theorem undo_redo_invalid_index (st : State) (idx : Int) :
    ((st.undo_list.length : Int) ≤ idx →
      undo st idx = (st, some PyError.indexError)) ∧
    ((st.redo_list.length : Int) ≤ idx →
      redo st idx = (st, some PyError.indexError)) := by
  constructor
  · intro h
    simp [undo, pyGet_none_of_ge st.undo_list idx h]
  · intro h
    simp [redo, pyGet_none_of_ge st.redo_list idx h]

/-- Witness for C1: on an empty history, index 0 is out of range for both
lists and both operations fail without touching the state. -/
theorem undo_redo_invalid_index_witness :
    undo ⟨fun _ => "", [], []⟩ 0 = (⟨fun _ => "", [], []⟩, some PyError.indexError) ∧
    redo ⟨fun _ => "", [], []⟩ 0 = (⟨fun _ => "", [], []⟩, some PyError.indexError) :=
  ⟨(undo_redo_invalid_index ⟨fun _ => "", [], []⟩ 0).1 (by decide),
   (undo_redo_invalid_index ⟨fun _ => "", [], []⟩ 0).2 (by decide)⟩

/-- Claim C2: for each of `extract_method`, `extract_variable` and `rename`,
either the computed change set is fully applied and recorded (pushed to the
front of `undo_list`, `redo_list` cleared), or an error — from computing or
from applying — is re-raised with history and project state unchanged. -/
theorem refactoring_applies_fully_or_not_at_all (st : State)
    (computed : Except PyError ChangeSet) :
    (∃ cs, computed = .ok cs ∧
      extract_method st computed =
        ({ proj := applyCS st.proj cs, undo_list := cs :: st.undo_list,
           redo_list := [] }, none) ∧
      extract_variable st computed =
        ({ proj := applyCS st.proj cs, undo_list := cs :: st.undo_list,
           redo_list := [] }, none) ∧
      rename st computed =
        ({ proj := applyCS st.proj cs, undo_list := cs :: st.undo_list,
           redo_list := [] }, none)) ∨
    (∃ e, extract_method st computed = (st, some e) ∧
      extract_variable st computed = (st, some e) ∧
      rename st computed = (st, some e)) := by
  cases computed with
  | error e => exact Or.inr ⟨e, rfl, rfl, rfl⟩
  | ok cs =>
    by_cases h : csValid st.proj cs
    · refine Or.inl ⟨cs, rfl, ?_, ?_, ?_⟩ <;>
        simp [extract_method, extract_variable, rename, performRefactoring,
          projDo, h]
    · refine Or.inr ⟨PyError.analysisError, ?_, ?_, ?_⟩ <;>
        simp [extract_method, extract_variable, rename, performRefactoring,
          projDo, h]

/-- Claim C4: every successfully applied refactoring pushes exactly the one
computed change set to the front of `undo_list` and clears `redo_list`,
whatever the prior history state (in particular after undos, when
`redo_list` is nonempty). -/
theorem refactoring_pushes_and_clears (st : State) (cs : ChangeSet)
    (st' : State)
    (h : performRefactoring st (Except.ok cs) = (st', none)) :
    st'.undo_list = cs :: st.undo_list ∧ st'.redo_list = [] := by
  simp only [performRefactoring, projDo] at h
  by_cases hv : csValid st.proj cs
  · rw [if_pos hv] at h
    injection h with h1 h2
    rw [← h1]
    exact ⟨rfl, rfl⟩
  · rw [if_neg hv] at h
    injection h with h1 h2
    exact absurd h2 (by simp)

/-- Witness for C4: a concrete refactoring applied to a state with both a
prior undo entry and a pending redo entry pushes one entry and clears the
redo list. -/
theorem refactoring_pushes_and_clears_witness :
    (performRefactoring ⟨fun _ => "", [⟨"d0", 0, []⟩], [⟨"d1", 1, []⟩]⟩
        (Except.ok ⟨"new", 2, [⟨"a.py", "", "x"⟩]⟩)).1.undo_list
      = ⟨"new", 2, [⟨"a.py", "", "x"⟩]⟩ :: [⟨"d0", 0, []⟩] ∧
    (performRefactoring ⟨fun _ => "", [⟨"d0", 0, []⟩], [⟨"d1", 1, []⟩]⟩
        (Except.ok ⟨"new", 2, [⟨"a.py", "", "x"⟩]⟩)).1.redo_list = [] :=
  refactoring_pushes_and_clears
    ⟨fun _ => "", [⟨"d0", 0, []⟩], [⟨"d1", 1, []⟩]⟩
    ⟨"new", 2, [⟨"a.py", "", "x"⟩]⟩
    (performRefactoring ⟨fun _ => "", [⟨"d0", 0, []⟩], [⟨"d1", 1, []⟩]⟩
        (Except.ok ⟨"new", 2, [⟨"a.py", "", "x"⟩]⟩)).1
    rfl

theorem pyGet_neg_one (l : List α) : pyGet l (-1) = l.getLast? := by
  cases l with
  | nil => rfl
  | cons x xs =>
    have hlen : (0:Int) ≤ -1 + (x :: xs).length := by
      simp only [List.length_cons]
      omega
    simp only [pyGet, pyIdx, if_pos (by decide : (-1:Int) < 0), if_pos hlen]
    have ht : ((-1 : Int) + (x :: xs).length).toNat = (x :: xs).length - 1 := by
      simp only [List.length_cons]
      omega
    rw [ht, ← List.getLast?_eq_get?]

theorem eraseIdx_last : ∀ (l : List α), l.eraseIdx (l.length - 1) = l.dropLast
  | [] => rfl
  | [_] => rfl
  | x :: y :: t => by
    have h : (x :: y :: t).length - 1 = ((y :: t).length - 1) + 1 := by
      simp
    rw [h]
    show x :: (y :: t).eraseIdx ((y :: t).length - 1) = (x :: y :: t).dropLast
    rw [eraseIdx_last (y :: t)]
    rfl

theorem pyRemoveAt_neg_one (l : List α) (h : l ≠ []) :
    pyRemoveAt l (-1) = l.dropLast := by
  cases l with
  | nil => exact absurd rfl h
  | cons x xs =>
    simp only [pyRemoveAt, pyIdx, if_pos (by decide : (-1:Int) < 0)]
    have ht : ((-1 : Int) + (x :: xs).length).toNat = (x :: xs).length - 1 := by
      simp only [List.length_cons]
      omega
    rw [ht, eraseIdx_last]

/-- Claim C10: with a nonempty `undo_list` (resp. `redo_list`), `undo(-1)`
(resp. `redo(-1)`) does not raise an out-of-range error: Python negative
indexing selects the last — oldest — entry, and the operation proceeds on
it. -/
theorem undo_redo_negative_index (st : State) (cs cr : ChangeSet) :
    (st.undo_list.getLast? = some cs →
      undo st (-1) = ({ proj := applyCS st.proj (invCS cs),
                        undo_list := st.undo_list.dropLast,
                        redo_list := invCS cs :: st.redo_list }, none)) ∧
    (st.redo_list.getLast? = some cr →
      redo st (-1) = ({ proj := applyCS st.proj (invCS cr),
                        undo_list := invCS cr :: st.undo_list,
                        redo_list := st.redo_list.dropLast }, none)) := by
  constructor
  · intro h
    have hne : st.undo_list ≠ [] := by
      intro he
      rw [he] at h
      simp at h
    simp only [undo, pyGet_neg_one, h, pyRemoveAt_neg_one st.undo_list hne]
  · intro h
    have hne : st.redo_list ≠ [] := by
      intro he
      rw [he] at h
      simp at h
    simp only [redo, pyGet_neg_one, h, pyRemoveAt_neg_one st.redo_list hne]

/-- Witness for C10 on singleton histories. -/
theorem undo_redo_negative_index_witness :
    undo ⟨fun _ => "", [⟨"du", 0, [⟨"a", "x", "y"⟩]⟩], [⟨"dr", 1, [⟨"b", "u", "v"⟩]⟩]⟩ (-1)
      = ({ proj := applyCS (fun _ => "") (invCS ⟨"du", 0, [⟨"a", "x", "y"⟩]⟩),
           undo_list := ([⟨"du", 0, [⟨"a", "x", "y"⟩]⟩] : List ChangeSet).dropLast,
           redo_list := invCS ⟨"du", 0, [⟨"a", "x", "y"⟩]⟩ :: [⟨"dr", 1, [⟨"b", "u", "v"⟩]⟩] }, none) ∧
    redo ⟨fun _ => "", [⟨"du", 0, [⟨"a", "x", "y"⟩]⟩], [⟨"dr", 1, [⟨"b", "u", "v"⟩]⟩]⟩ (-1)
      = ({ proj := applyCS (fun _ => "") (invCS ⟨"dr", 1, [⟨"b", "u", "v"⟩]⟩),
           undo_list := invCS ⟨"dr", 1, [⟨"b", "u", "v"⟩]⟩ :: [⟨"du", 0, [⟨"a", "x", "y"⟩]⟩],
           redo_list := ([⟨"dr", 1, [⟨"b", "u", "v"⟩]⟩] : List ChangeSet).dropLast }, none) :=
  ⟨(undo_redo_negative_index
      ⟨fun _ => "", [⟨"du", 0, [⟨"a", "x", "y"⟩]⟩], [⟨"dr", 1, [⟨"b", "u", "v"⟩]⟩]⟩
      ⟨"du", 0, [⟨"a", "x", "y"⟩]⟩ ⟨"dr", 1, [⟨"b", "u", "v"⟩]⟩).1 rfl,
   (undo_redo_negative_index
      ⟨fun _ => "", [⟨"du", 0, [⟨"a", "x", "y"⟩]⟩], [⟨"dr", 1, [⟨"b", "u", "v"⟩]⟩]⟩
      ⟨"du", 0, [⟨"a", "x", "y"⟩]⟩ ⟨"dr", 1, [⟨"b", "u", "v"⟩]⟩).2 rfl⟩

theorem recordAll_ok (css : List ChangeSet) :
    ∀ ps ul, seqValid ps css = true →
      recordAll ⟨ps, ul, []⟩ css
        = (⟨applyAllPS ps css, css.reverse ++ ul, []⟩, none) := by
  induction css with
  | nil =>
    intro ps ul _
    simp [recordAll, applyAllPS]
  | cons cs rest ih =>
    intro ps ul h
    have hc := seqValid_cons h
    simp only [recordAll, performRefactoring, projDo, if_pos hc.1]
    rw [ih (applyCS ps cs) (cs :: ul) hc.2]
    simp [applyAllPS, List.reverse_cons, List.append_assoc]

theorem undoTimes_add (m n : Nat) : ∀ st : State, (undoTimes st m).2 = none →
    undoTimes st (m + n) = undoTimes (undoTimes st m).1 n := by
  induction m with
  | zero =>
    intro st _
    rw [Nat.zero_add]
    rfl
  | succ k ih =>
    intro st h
    have hadd : k + 1 + n = (k + n) + 1 := by omega
    rw [hadd]
    rcases h1 : undo st 0 with ⟨st1, e⟩
    cases e with
    | none =>
      have hl : undoTimes st ((k + n) + 1) = undoTimes st1 (k + n) := by
        simp only [undoTimes, h1]
      have hr : undoTimes st (k + 1) = undoTimes st1 k := by
        simp only [undoTimes, h1]
      rw [hl, hr]
      rw [hr] at h
      exact ih st1 h
    | some e =>
      exfalso
      have h2 : (undoTimes st (k + 1)).2 = some e := by
        simp only [undoTimes, h1]
      rw [h] at h2
      exact Option.noConfusion h2

theorem undoTimes_unwinds (css : List ChangeSet) :
    ∀ ps bottom rl, seqValid ps css = true →
      undoTimes ⟨applyAllPS ps css, css.reverse ++ bottom, rl⟩ css.length
        = (⟨ps, bottom, css.map invCS ++ rl⟩, none) := by
  induction css with
  | nil =>
    intro ps bottom rl _
    rfl
  | cons c rest ih =>
    intro ps bottom rl h
    have hc := seqValid_cons h
    have hul : (c :: rest).reverse ++ bottom = rest.reverse ++ (c :: bottom) := by
      simp [List.reverse_cons, List.append_assoc]
    rw [show (c :: rest).length = rest.length + 1 from rfl, hul,
      show applyAllPS ps (c :: rest) = applyAllPS (applyCS ps c) rest from rfl]
    have hstep := ih (applyCS ps c) (c :: bottom) rl hc.2
    rw [undoTimes_add rest.length 1 _ (by rw [hstep]), hstep]
    have hone : undoTimes ⟨applyCS ps c, c :: bottom, rest.map invCS ++ rl⟩ 1
        = (⟨applyCS (applyCS ps c) (invCS c), bottom,
            invCS c :: (rest.map invCS ++ rl)⟩, none) := rfl
    rw [hone, applyCS_invCS ps c hc.1]
    simp

/-- Claim C3: a valid sequence of N successful refactorings starting from an
empty history, followed by N calls of `undo(0)`, restores the project's
resource contents, empties `undo_list`, and leaves `redo_list` with exactly
N entries. -/
theorem refactor_then_undo_roundtrip (ps : ProjState) (css : List ChangeSet)
    (h : seqValid ps css = true) :
    recordAll ⟨ps, [], []⟩ css = (⟨applyAllPS ps css, css.reverse, []⟩, none) ∧
    undoTimes (recordAll ⟨ps, [], []⟩ css).1 css.length
      = (⟨ps, [], css.map invCS⟩, none) ∧
    (undoTimes (recordAll ⟨ps, [], []⟩ css).1 css.length).1.redo_list.length
      = css.length := by
  have h1 : recordAll ⟨ps, [], []⟩ css
      = (⟨applyAllPS ps css, css.reverse, []⟩, none) := by
    have := recordAll_ok css ps [] h
    simpa using this
  have h2 : undoTimes (⟨applyAllPS ps css, css.reverse, []⟩ : State) css.length
      = (⟨ps, [], css.map invCS⟩, none) := by
    have := undoTimes_unwinds css ps [] [] h
    simpa using this
  refine ⟨h1, ?_, ?_⟩
  · rw [h1]
    exact h2
  · rw [h1]
    show (undoTimes (⟨applyAllPS ps css, css.reverse, []⟩ : State) css.length).1.redo_list.length = css.length
    rw [h2]
    simp

/-- Witness for C3: two concrete successive edits of `a.py`, recorded and
then undone twice. -/
theorem refactor_then_undo_roundtrip_witness :
    seqValid (fun _ => "")
      [⟨"r1", 0, [⟨"a.py", "", "v1"⟩]⟩, ⟨"r2", 1, [⟨"a.py", "v1", "v2"⟩]⟩] = true ∧
    undoTimes (recordAll ⟨fun _ => "", [], []⟩
        [⟨"r1", 0, [⟨"a.py", "", "v1"⟩]⟩, ⟨"r2", 1, [⟨"a.py", "v1", "v2"⟩]⟩]).1
        ([⟨"r1", 0, [⟨"a.py", "", "v1"⟩]⟩,
          (⟨"r2", 1, [⟨"a.py", "v1", "v2"⟩]⟩ : ChangeSet)] : List ChangeSet).length
      = (⟨fun _ => "", [],
          ([⟨"r1", 0, [⟨"a.py", "", "v1"⟩]⟩,
            (⟨"r2", 1, [⟨"a.py", "v1", "v2"⟩]⟩ : ChangeSet)] : List ChangeSet).map invCS⟩,
         none) :=
  ⟨by decide,
   (refactor_then_undo_roundtrip (fun _ => "")
      [⟨"r1", 0, [⟨"a.py", "", "v1"⟩]⟩, ⟨"r2", 1, [⟨"a.py", "v1", "v2"⟩]⟩]
      (by decide)).2.1⟩

/-! ## Resource-tree traversal (`get_all_resources`)

The module-level `get_all_resources` generator (rope_interface.py, lines
13-31) keeps a work list of paths seeded with `''` (the project root), pops
the front, yields `(res.path, res.is_folder())` for the looked-up resource,
and appends the children's paths to the back when the resource is a folder.
The engine's `get_resource`/`get_children` (rope, not under src/) are
modelled by carrying the resources themselves in the work list: looking up a
child's path returns that child. -/

/-- A finite resource tree: a file or a folder with children, each carrying
its path string. -/
inductive Resource where
  | file : String → Resource
  | folder : String → List Resource → Resource

mutual

/-- Size of a resource tree (number of nodes). -/
def sizeR : Resource → Nat
  | .file _ => 1
  | .folder _ cs => 1 + sizeL cs

/-- Total size of a list of resource trees. -/
def sizeL : List Resource → Nat
  | [] => 0
  | r :: rs => sizeR r + sizeL rs

end

/-- The `(path, is_folder)` pair the loop yields for a resource. -/
def resInfo : Resource → String × Bool
  | .file p => (p, false)
  | .folder p _ => (p, true)

/-- The children the loop appends for a resource (`get_children`). -/
def resChildren : Resource → List Resource
  | .file _ => []
  | .folder _ cs => cs

theorem sizeL_append (a b : List Resource) :
    sizeL (a ++ b) = sizeL a + sizeL b := by
  induction a with
  | nil => simp [sizeL]
  | cons x xs ih =>
    simp only [List.cons_append, sizeL, List.append_eq] at *
    omega

theorem sizeL_resChildren_lt (r : Resource) : sizeL (resChildren r) < sizeR r := by
  cases r <;> simp [resChildren, sizeR, sizeL]

/-- Embedding of the `get_all_resources` while-loop: process the work list
front to back, yielding each resource's info and enqueuing its children at
the back.  `RopeInterface.get_all_resources` (lines 59-66) materializes
`get_all_resources(proj)` seeded with the project root. -/
def get_all_resources : List Resource → List (String × Bool)
  | [] => []
  | r :: todo => resInfo r :: get_all_resources (todo ++ resChildren r)
termination_by l => sizeL l
decreasing_by
  simp only [List.append_eq, sizeL_append, sizeL]
  have := sizeL_resChildren_lt r
  omega

/-- All children of a list of resources, in order. -/
def childrenAll : List Resource → List Resource
  | [] => []
  | t :: ts => resChildren t ++ childrenAll ts

mutual

/-- All `(path, is_folder)` pairs of a resource tree (preorder). -/
def allResources : Resource → List (String × Bool)
  | .file p => [(p, false)]
  | .folder p cs => (p, true) :: allResL cs

/-- All pairs of a list of resource trees. -/
def allResL : List Resource → List (String × Bool)
  | [] => []
  | t :: ts => allResources t ++ allResL ts

end

theorem sizeL_childrenAll_le (l : List Resource) :
    sizeL (childrenAll l) ≤ sizeL l := by
  induction l with
  | nil => simp [childrenAll, sizeL]
  | cons x xs ih =>
    simp only [childrenAll, sizeL, sizeL_append]
    have := sizeL_resChildren_lt x
    omega

theorem sizeL_childrenAll_lt_cons (t : Resource) (ts : List Resource) :
    sizeL (childrenAll (t :: ts)) < sizeL (t :: ts) := by
  have h2 := sizeL_resChildren_lt t
  have h3 := sizeL_childrenAll_le ts
  simp only [childrenAll, sizeL, sizeL_append]
  omega

/-- The successive breadth-first levels of a list of resource trees. -/
def levelsL : List Resource → List (List (String × Bool))
  | [] => []
  | t :: ts => ((t :: ts).map resInfo) :: levelsL (childrenAll (t :: ts))
termination_by l => sizeL l
decreasing_by
  exact sizeL_childrenAll_lt_cons _ _

theorem childrenAll_append (a b : List Resource) :
    childrenAll (a ++ b) = childrenAll a ++ childrenAll b := by
  induction a with
  | nil => rfl
  | cons x xs ih => simp [childrenAll, ih]

/-- Queue lemma: processing `as ++ bs` first yields all of `as`'s infos,
with `as`'s children queued behind `bs`. -/
theorem get_all_resources_append (as : List Resource) :
    ∀ bs, get_all_resources (as ++ bs)
      = as.map resInfo ++ get_all_resources (bs ++ childrenAll as) := by
  induction as with
  | nil =>
    intro bs
    simp [childrenAll]
  | cons a as' ih =>
    intro bs
    show get_all_resources (a :: (as' ++ bs)) = _
    rw [get_all_resources]
    rw [show as' ++ bs ++ resChildren a = as' ++ (bs ++ resChildren a) from
      List.append_assoc as' bs (resChildren a)]
    rw [ih (bs ++ resChildren a)]
    simp [childrenAll, List.append_assoc]

/-- One breadth-first step of the queue loop. -/
theorem get_all_resources_step (ts : List Resource) :
    get_all_resources ts = ts.map resInfo ++ get_all_resources (childrenAll ts) := by
  have h := get_all_resources_append ts []
  simpa using h

/-- The queue loop lists the levels of the forest in order. -/
theorem get_all_resources_eq_levels (ts : List Resource) :
    get_all_resources ts = (levelsL ts).flatten := by
  match ts with
  | [] => simp [get_all_resources, levelsL]
  | t :: ts' =>
    rw [get_all_resources_step (t :: ts')]
    rw [get_all_resources_eq_levels (childrenAll (t :: ts'))]
    simp [levelsL]
termination_by sizeL ts
decreasing_by
  exact sizeL_childrenAll_lt_cons _ _

theorem allResources_eq (t : Resource) :
    allResources t = resInfo t :: allResL (resChildren t) := by
  cases t <;> rfl

theorem allResL_append (a b : List Resource) :
    allResL (a ++ b) = allResL a ++ allResL b := by
  induction a with
  | nil => rfl
  | cons x xs ih => simp [allResL, ih]

/-- Pure reshuffling: a level of infos followed by everything below it is a
permutation of the preorder listing. -/
theorem map_info_append_perm (l : List Resource) :
    (l.map resInfo ++ allResL (childrenAll l)).Perm (allResL l) := by
  induction l with
  | nil => simp [childrenAll, allResL]
  | cons t ts ih =>
    rw [show allResL (t :: ts) = allResources t ++ allResL ts from rfl,
      allResources_eq t]
    simp only [List.map_cons, childrenAll, List.cons_append, allResL_append]
    refine List.Perm.cons (resInfo t) ?_
    have h1 : (List.map resInfo ts ++
        (allResL (resChildren t) ++ allResL (childrenAll ts))).Perm
        (allResL (resChildren t) ++
          (List.map resInfo ts ++ allResL (childrenAll ts))) := by
      rw [← List.append_assoc, ← List.append_assoc]
      exact List.perm_append_comm.append_right _
    exact h1.trans (ih.append_left (allResL (resChildren t)))

/-- The queue loop yields each resource of the forest exactly once. -/
theorem get_all_resources_perm (ts : List Resource) :
    (get_all_resources ts).Perm (allResL ts) := by
  match ts with
  | [] => simp [get_all_resources, allResL]
  | t :: ts' =>
    rw [get_all_resources_step (t :: ts')]
    have h1 := get_all_resources_perm (childrenAll (t :: ts'))
    exact (h1.append_left _).trans (map_info_append_perm (t :: ts'))
termination_by sizeL ts
decreasing_by
  exact sizeL_childrenAll_lt_cons _ _

/-- Claim C7: starting from the project root, `get_all_resources` yields a
`(path, is_folder)` pair for every resource of the tree exactly once — its
output is a permutation of the tree's resource listing — and it does so in
breadth-first level order. -/
theorem get_all_resources_exactly_once_bfs (root : Resource) :
    (get_all_resources [root]).Perm (allResources root) ∧
    get_all_resources [root] = (levelsL [root]).flatten := by
  constructor
  · have h := get_all_resources_perm [root]
    simpa [allResL] using h
  · exact get_all_resources_eq_levels [root]

/-! ## Definition-location normalization (`get_definition_location`) -/

/-- The engine's resource object, carrying its resolved filesystem path
(rope's `Resource.real_path`). -/
structure RopeResource where
  real_path : List Char

/-- Embedding of `RopeInterface.get_definition_location` (rope_interface.py,
lines 281-310).  The queried path is first resolved with
`_to_relative_path`; the engine's raw result `rslt` is a pair of an optional
resource object and an optional line.  If the line is missing the raw pair
is returned as-is (a raw resource object would leak through, `Sum.inl`); if
the resource is missing the resolved queried path is substituted; otherwise
the target resource's `real_path` is returned. -/
def get_definition_location (root path : List Char)
    (rslt : Option RopeResource × Option Nat) :
    Option (RopeResource ⊕ List Char) × Option Nat :=
  match rslt with
  | (r, none) => (r.map Sum.inl, none)
  | (none, some l) => (some (Sum.inr (toRelativePath root path)), some l)
  | (some r, some l) => (some (Sum.inr r.real_path), some l)

/-- Claim C8: for each of the three engine result shapes, the method returns
the corresponding normalized result: `(None, None)` when nothing was found,
the resolved queried path with the line when the engine returned no
resource, and the target resource's resolved path with the line otherwise. -/
theorem get_definition_location_normalizes (root path : List Char)
    (r : RopeResource) (l : Nat) :
    get_definition_location root path (none, none) = (none, none) ∧
    get_definition_location root path (none, some l)
      = (some (Sum.inr (toRelativePath root path)), some l) ∧
    get_definition_location root path (some r, some l)
      = (some (Sum.inr r.real_path), some l) :=
  ⟨rfl, rfl, rfl⟩

/-! ## Process entry point (`server.py`)

`main` (server.py, lines 27-64) builds an argparse parser with an optional
`--port` (int, default 0, "0 selects an unused port"), an optional
`--verbosity` (int, default 0) and a required positional `project`, then
configures logging by looking the verbosity up in the dict
`{0: WARNING, 1: INFO, 2: DEBUG}` (a missing key raises `KeyError`,
modelled as `none`). -/

/-- Python `logging` severity levels used by `main`. -/
inductive LogLevel where
  | debug
  | info
  | warning
deriving DecidableEq

/-- The shape of one argparse argument declaration: whether the parser
requires it (positional without a default) and its default value. -/
structure ArgSpec where
  required : Bool
  intDefault : Option Int

/-- The `-p, --port` argument (server.py, lines 33-37). -/
def portArg : ArgSpec := { required := false, intDefault := some 0 }

/-- The `-V, --verbosity` argument (server.py, lines 39-42). -/
def verbosityArg : ArgSpec := { required := false, intDefault := some 0 }

/-- The positional `project` argument (server.py, lines 44-46): argparse
makes a positional argument without `nargs` mandatory and it has no
default. -/
def projectArg : ArgSpec := { required := true, intDefault := none }

/-- The verbosity-to-level dict of `main` (server.py, lines 51-55). -/
def levelTable : List (Int × LogLevel) :=
  [(0, LogLevel.warning), (1, LogLevel.info), (2, LogLevel.debug)]

/-- The level `main` configures for a verbosity value. -/
def logLevelFor (v : Int) : Option LogLevel :=
  levelTable.lookup v

/-- Claim C9: the entry point requires the project directory, defaults the
port to 0 (OS-assigned), and maps verbosity 0 to warnings only, 1 to info
and 2 to debug. -/
theorem entry_point_arguments :
    projectArg.required = true ∧ projectArg.intDefault = none ∧
    portArg.required = false ∧ portArg.intDefault = some 0 ∧
    logLevelFor 0 = some LogLevel.warning ∧
    logLevelFor 1 = some LogLevel.info ∧
    logLevelFor 2 = some LogLevel.debug := by
  refine ⟨rfl, rfl, rfl, rfl, ?_, ?_, ?_⟩ <;> rfl

end Traad
